import Mathlib

/-!
Verification of the JSON-to-MongoDB importer (`src/main.go` and the unnamed
variant `src/unnamed/part_000`).

Modelling conventions:
* Go strings and byte slices are modelled as `List Char` (all inputs of
  interest are ASCII, where Go bytes and runes coincide).
* `filepath.Base`, `strings.HasSuffix`, `strings.Split`, `strings.TrimSpace`
  and `bytes.TrimSpace` are modelled directly from their Go semantics
  (Unix separator `/`, ASCII whitespace).
* The external library call `bson.UnmarshalExtJSON(data, canonical, &v)` is
  modelled by an executable extended-JSON decoder parameterised by the
  `canonical` flag, covering the JSON subset and the wrapper keys
  (`$date`, `$numberLong`, `$numberInt`) relevant to this repository.
  With `canonical = true` the relaxed string form of `$date` is rejected;
  with `canonical = false` (the mode the repository actually passes) both
  the relaxed string form and the canonical `$numberLong` form are accepted,
  matching the driver.
* `bufio.Scanner` with `bufio.ScanLines` is modelled at the line level:
  a line (a `\n`-separated piece, still carrying any trailing `\r`) of
  length at least the default `MaxScanTokenSize = 65536` makes the scanner
  stop with `ErrTooLong`; shorter lines are delivered with one trailing
  `\r` stripped.
* Database effects are modelled as a trace of issued operations; the
  environment (`FileEnv`) supplies the results of the external file read and
  of `DeleteMany` (the result of `InsertMany` only affects logging).
-/

/-- ASCII whitespace, as recognised by Go's `unicode.IsSpace` on ASCII input:
space, tab, newline, vertical tab, form feed, carriage return. -/
def goIsSpace (c : Char) : Bool :=
  c = ' ' || c = '\t' || c = '\n' || c = Char.ofNat 11 || c = Char.ofNat 12 || c = '\r'

/-- Drop leading whitespace. -/
def trimLeft (l : List Char) : List Char :=
  l.dropWhile goIsSpace

/-- Drop trailing whitespace. -/
def trimRight (l : List Char) : List Char :=
  (l.reverse.dropWhile goIsSpace).reverse

/-- Model of Go `strings.TrimSpace` / `bytes.TrimSpace` on ASCII content. -/
def trimSpace (l : List Char) : List Char :=
  trimLeft (trimRight l)

/-- Model of Go `strings.Split s sep` for a one-character separator `sep`:
splits on every occurrence, keeping empty pieces, and yields `[[]]` on `[]`. -/
def splitOnChar (sep : Char) : List Char → List (List Char)
  | [] => [[]]
  | c :: rest =>
    if c = sep then [] :: splitOnChar sep rest
    else
      match splitOnChar sep rest with
      | [] => [[c]]
      | r :: rs => (c :: r) :: rs

/-- Model of the `dropCR` step of `bufio.ScanLines`: remove one trailing
carriage return, if present. -/
def stripCR (p : List Char) : List Char :=
  match p.reverse with
  | c :: rest => if c = '\r' then rest.reverse else p
  | [] => p

/-- Model of Go `strings.HasSuffix s suffix`:
`len(s) >= len(suffix) && s[len(s)-len(suffix):] == suffix`. -/
def goHasSuffix (s suffix : List Char) : Bool :=
  decide (suffix.length ≤ s.length) && decide (s.drop (s.length - suffix.length) = suffix)

/-- Model of Go `filepath.Base` with the Unix separator `/` (empty volume
name): empty path gives `"."`, trailing separators are removed, the part
after the last separator is returned, and an all-separator path gives `"/"`. -/
def goBase (path : List Char) : List Char :=
  if path = [] then ['.']
  else
    let p := (path.reverse.dropWhile (fun c => c = '/')).reverse
    let base := (p.reverse.takeWhile (fun c => c ≠ '/')).reverse
    if base = [] then ['/'] else base

/-- Character list of a string literal (convenience for concrete inputs). -/
def toChars (s : String) : List Char :=
  s.data

/-- The literal suffix `".json"` used by both implementations. -/
def jsonSuffix : List Char :=
  toChars ".json"

/-- Whether an `Except` value is an error. -/
def isErr {ε α : Type} : Except ε α → Bool
  | .error _ => true
  | .ok _ => false

/-! ### Plain JSON values and the JSON parser underlying the extended-JSON model -/

/-- Plain JSON values as produced by the textual parser.  Numbers are
modelled as integers: no input of this development uses fractional or
exponent notation, and the model parser rejects those forms explicitly. -/
inductive JVal where
  | null
  | bool (b : Bool)
  | num (n : Int)
  | str (s : List Char)
  | arr (elems : List JVal)
  | obj (fields : List (List Char × JVal))

/-- BSON values as produced by extended-JSON decoding into `bson.M` /
`interface\x7b\x7d` trees: the JSON primitives plus the decoded wrapper types. -/
inductive BVal where
  | null
  | bool (b : Bool)
  | int (n : Int)
  | str (s : List Char)
  | dateTime (ms : Int)
  | doc (fields : List (List Char × BVal))
  | arr (elems : List BVal)

/-- Opening curly brace (kept out of literals). -/
def lbrace : Char := Char.ofNat 123

/-- Closing curly brace (kept out of literals). -/
def rbrace : Char := Char.ofNat 125

/-- Skip JSON whitespace. -/
def skipWs : List Char → List Char
  | [] => []
  | c :: rest => if goIsSpace c then skipWs rest else c :: rest

/-- Decode one escape character of a JSON string literal (the subset used by
the inputs of this development). -/
def escChar (e : Char) : Option Char :=
  if e = '"' then some '"'
  else if e = '\\' then some '\\'
  else if e = '/' then some '/'
  else if e = 'n' then some '\n'
  else if e = 't' then some '\t'
  else if e = 'r' then some '\r'
  else none

/-- Prepend a character to the string being accumulated by `parseStringBody`. -/
def consMap (c : Char) : Except String (List Char × List Char) → Except String (List Char × List Char)
  | .error e => .error e
  | .ok (s, r) => .ok (c :: s, r)

/-- Parse the body of a JSON string literal (after the opening quote),
returning the decoded characters and the remaining input. -/
def parseStringBody : List Char → Except String (List Char × List Char)
  | [] => .error "unterminated string literal"
  | '"' :: rest => .ok ([], rest)
  | '\\' :: e :: rest =>
      match escChar e with
      | none => .error "unsupported escape sequence"
      | some ch => consMap ch (parseStringBody rest)
  | '\\' :: [] => .error "unterminated escape sequence"
  | c :: rest => consMap c (parseStringBody rest)

/-- Numeric value of a decimal digit character, if it is one. -/
def digitVal (c : Char) : Option Nat :=
  if '0' ≤ c ∧ c ≤ '9' then some (c.toNat - 48) else none

/-- Take a maximal run of decimal digits, returning their values and the rest. -/
def takeDigits : List Char → List Nat × List Char
  | [] => ([], [])
  | c :: rest =>
    match digitVal c with
    | none => ([], c :: rest)
    | some d =>
      let (ds, r) := takeDigits rest
      (d :: ds, r)

/-- Decimal value of a digit list. -/
def digitsVal (ds : List Nat) : Nat :=
  ds.foldl (fun a d => a * 10 + d) 0

/-- Reject fractional or exponent number syntax (outside the model's scope). -/
def checkIntTail (r : List Char) (v : Int) : Except String (Int × List Char) :=
  match r with
  | '.' :: _ => .error "fractional numbers are outside the model"
  | 'e' :: _ => .error "exponent numbers are outside the model"
  | 'E' :: _ => .error "exponent numbers are outside the model"
  | _ => .ok (v, r)

/-- Parse a JSON integer numeral (optional minus sign, digits). -/
def parseNumber : List Char → Except String (Int × List Char)
  | '-' :: rest =>
    match takeDigits rest with
    | ([], _) => .error "invalid number"
    | (d :: ds, r) => checkIntTail r (-(digitsVal (d :: ds) : Int))
  | input =>
    match takeDigits input with
    | ([], _) => .error "invalid number"
    | (d :: ds, r) => checkIntTail r (digitsVal (d :: ds))

/-- Expect a literal keyword (`true`, `false`, `null`). -/
def expectLit (input : List Char) (lit : List Char) (v : JVal) : Except String (JVal × List Char) :=
  if lit.isPrefixOf input then .ok (v, input.drop lit.length)
  else .error "invalid literal"

mutual

/-- Parse one JSON value (fuel-driven recursive descent).  The input must
already start at the value's first character. -/
def parseValue : Nat → List Char → Except String (JVal × List Char)
  | 0, _ => .error "value nesting exhausted the fuel"
  | fuel + 1, input =>
    match input with
    | [] => .error "unexpected end of JSON value"
    | c :: rest =>
      if c = '"' then
        match parseStringBody rest with
        | .error e => .error e
        | .ok (s, r) => .ok (.str s, r)
      else if c = lbrace then
        match skipWs rest with
        | d :: r2 =>
          if d = rbrace then .ok (.obj [], r2)
          else
            match parseMembers fuel (skipWs rest) with
            | .error e => .error e
            | .ok (fs, r) => .ok (.obj fs, r)
        | [] => .error "unterminated object"
      else if c = '[' then
        match skipWs rest with
        | d :: r2 =>
          if d = ']' then .ok (.arr [], r2)
          else
            match parseElems fuel (skipWs rest) with
            | .error e => .error e
            | .ok (es, r) => .ok (.arr es, r)
        | [] => .error "unterminated array"
      else if c = 't' then expectLit input (toChars "true") (.bool true)
      else if c = 'f' then expectLit input (toChars "false") (.bool false)
      else if c = 'n' then expectLit input (toChars "null") .null
      else if c = '-' ∨ (digitVal c).isSome then
        match parseNumber input with
        | .error e => .error e
        | .ok (n, r) => .ok (.num n, r)
      else .error "unexpected character at start of value"

/-- Parse the members of a JSON object, starting at the first key. -/
def parseMembers : Nat → List Char → Except String (List (List Char × JVal) × List Char)
  | 0, _ => .error "member nesting exhausted the fuel"
  | fuel + 1, input =>
    match skipWs input with
    | [] => .error "unterminated object"
    | c :: rest =>
      if c = '"' then
        match parseStringBody rest with
        | .error e => .error e
        | .ok (key, r1) =>
          match skipWs r1 with
          | ':' :: r2 =>
            match parseValue fuel (skipWs r2) with
            | .error e => .error e
            | .ok (v, r3) =>
              match skipWs r3 with
              | ',' :: r4 =>
                match parseMembers fuel r4 with
                | .error e => .error e
                | .ok (fs, r5) => .ok ((key, v) :: fs, r5)
              | d :: r4 =>
                if d = rbrace then .ok ([(key, v)], r4)
                else .error "expected comma or end of object"
              | [] => .error "unterminated object"
          | _ => .error "expected colon after object key"
      else .error "expected string key in object"

/-- Parse the elements of a JSON array, starting at the first element. -/
def parseElems : Nat → List Char → Except String (List JVal × List Char)
  | 0, _ => .error "element nesting exhausted the fuel"
  | fuel + 1, input =>
    match parseValue fuel (skipWs input) with
    | .error e => .error e
    | .ok (v, r1) =>
      match skipWs r1 with
      | ',' :: r2 =>
        match parseElems fuel r2 with
        | .error e => .error e
        | .ok (es, r) => .ok (v :: es, r)
      | ']' :: r2 => .ok ([v], r2)
      | _ => .error "expected comma or end of array"

end

/-- Parse a complete JSON document: one value, with only whitespace around it. -/
def parseJSON (data : List Char) : Except String JVal :=
  match parseValue (2 * data.length + 4) (skipWs data) with
  | .error e => .error e
  | .ok (v, rest) =>
    match skipWs rest with
    | [] => .ok v
    | _ => .error "unexpected content after JSON value"

/-! ### Extended-JSON decoding (model of `bson.UnmarshalExtJSON`) -/

/-- Parse a decimal integer string completely (optional sign, digits only). -/
def parseIntString (s : List Char) : Except String Int :=
  match s with
  | '-' :: rest =>
    match takeDigits rest with
    | (d :: ds, []) => .ok (-(digitsVal (d :: ds) : Int))
    | _ => .error "invalid integer string"
  | _ =>
    match takeDigits s with
    | (d :: ds, []) => .ok (digitsVal (d :: ds))
    | _ => .error "invalid integer string"

/-- Combine two digit characters into a number. -/
def num2 (a b : Char) : Option Nat :=
  match digitVal a, digitVal b with
  | some x, some y => some (10 * x + y)
  | _, _ => none

/-- Combine four digit characters into a number. -/
def num4 (a b c d : Char) : Option Nat :=
  match num2 a b, num2 c d with
  | some x, some y => some (100 * x + y)
  | _, _ => none

/-- Days from the Unix epoch to the given civil date (standard civil-days
computation over the proleptic Gregorian calendar, floor division). -/
def daysFromCivil (y : Int) (m d : Nat) : Int :=
  let y' : Int := if m ≤ 2 then y - 1 else y
  let era : Int := Int.fdiv y' 400
  let yoe : Int := y' - era * 400
  let mp : Int := if m ≤ 2 then (m : Int) + 9 else (m : Int) - 3
  let doy : Int := Int.fdiv (153 * mp + 2) 5 + (d : Int) - 1
  let doe : Int := yoe * 365 + Int.fdiv yoe 4 - Int.fdiv yoe 100 + doy
  era * 146097 + doe - 719468

/-- Milliseconds since the Unix epoch of a civil timestamp with a UTC offset
given in minutes. -/
def epochMs (y : Int) (mo d hh mi ss ms : Nat) (offMin : Int) : Int :=
  daysFromCivil y mo d * 86400000
    + ((hh * 3600 + mi * 60 + ss : Nat) : Int) * 1000 + (ms : Int)
    - offMin * 60000

/-- Milliseconds represented by a fraction-of-second digit run (first three
digits, right-padded with zeros). -/
def msOfFrac (ds : List Nat) : Nat :=
  digitsVal (ds.take 3 ++ List.replicate (3 - (ds.take 3).length) 0)

/-- Parse the timezone part of an RFC 3339 timestamp: `Z` or `±hh:mm`,
returning the offset in minutes. -/
def parseZone (s : List Char) : Except String Int :=
  match s with
  | ['Z'] => .ok 0
  | [sgn, a, b, ':', c, d] =>
    if sgn = '+' ∨ sgn = '-' then
      match num2 a b, num2 c d with
      | some hh, some mm =>
        if hh ≤ 23 ∧ mm ≤ 59 then
          .ok ((if sgn = '-' then (-1 : Int) else 1) * ((hh : Int) * 60 + (mm : Int)))
        else .error "timezone offset out of range"
      | _, _ => .error "invalid timezone digits"
    else .error "invalid timezone"
  | _ => .error "invalid timezone"

/-- Parse the optional fraction and the timezone of an RFC 3339 timestamp,
returning milliseconds of fraction and the offset in minutes. -/
def parseFracZone (s : List Char) : Except String (Nat × Int) :=
  match s with
  | '.' :: rest =>
    match takeDigits rest with
    | ([], _) => .error "invalid fraction"
    | (d :: ds, r) =>
      match parseZone r with
      | .error e => .error e
      | .ok off => .ok (msOfFrac (d :: ds), off)
  | rest =>
    match parseZone rest with
    | .error e => .error e
    | .ok off => .ok (0, off)

/-- Parse an RFC 3339 timestamp (the layout accepted by the driver for the
relaxed `$date` string form) into milliseconds since the Unix epoch. -/
def parseRFC3339 (s : List Char) : Except String Int :=
  match s with
  | y1 :: y2 :: y3 :: y4 :: '-' :: a1 :: a2 :: '-' :: b1 :: b2 :: 'T'
      :: h1 :: h2 :: ':' :: i1 :: i2 :: ':' :: s1 :: s2 :: rest =>
    match num4 y1 y2 y3 y4, num2 a1 a2, num2 b1 b2, num2 h1 h2, num2 i1 i2, num2 s1 s2 with
    | some yy, some mo, some dd, some hh, some mi, some ss =>
      if 1 ≤ mo ∧ mo ≤ 12 ∧ 1 ≤ dd ∧ dd ≤ 31 ∧ hh ≤ 23 ∧ mi ≤ 59 ∧ ss ≤ 59 then
        match parseFracZone rest with
        | .error e => .error e
        | .ok (ms, off) => .ok (epochMs (yy : Int) mo dd hh mi ss ms off)
      else .error "timestamp component out of range"
    | _, _, _, _, _, _ => .error "invalid timestamp digits"
  | _ => .error "invalid RFC 3339 timestamp"

mutual

/-- Turn a parsed JSON value into a BSON value, interpreting the extended-JSON
wrapper documents.  `canonical = true` models the driver's canonical-only
mode, which rejects the relaxed string form of `$date`; `canonical = false`
models relaxed parsing, which accepts both the relaxed string form and the
canonical `$numberLong` form. -/
def extendValue : Nat → Bool → JVal → Except String BVal
  | 0, _, _ => .error "value nesting exhausted the fuel"
  | fuel + 1, canonical, v =>
    match v with
    | .null => .ok .null
    | .bool b => .ok (.bool b)
    | .num n => .ok (.int n)
    | .str s => .ok (.str s)
    | .arr es =>
      match extendElems fuel canonical es with
      | .error e => .error e
      | .ok bs => .ok (.arr bs)
    | .obj fs =>
      match fs with
      | [(k, inner)] =>
        if k = toChars "$date" then
          match inner with
          | .str s =>
            if canonical then .error "canonical mode rejects the relaxed date string form"
            else
              match parseRFC3339 s with
              | .error e => .error e
              | .ok ms => .ok (.dateTime ms)
          | .obj [(k2, .str ns)] =>
            if k2 = toChars "$numberLong" then
              match parseIntString ns with
              | .error e => .error e
              | .ok n => .ok (.dateTime n)
            else .error "invalid document inside a date wrapper"
          | _ => .error "invalid value inside a date wrapper"
        else if k = toChars "$numberLong" then
          match inner with
          | .str ns =>
            match parseIntString ns with
            | .error e => .error e
            | .ok n => .ok (.int n)
          | _ => .error "a long wrapper requires a string value"
        else if k = toChars "$numberInt" then
          match inner with
          | .str ns =>
            match parseIntString ns with
            | .error e => .error e
            | .ok n => .ok (.int n)
          | _ => .error "an int wrapper requires a string value"
        else
          match extendFields fuel canonical fs with
          | .error e => .error e
          | .ok gs => .ok (.doc gs)
      | _ =>
        match extendFields fuel canonical fs with
        | .error e => .error e
        | .ok gs => .ok (.doc gs)

/-- Extend every element of a JSON array. -/
def extendElems : Nat → Bool → List JVal → Except String (List BVal)
  | 0, _, _ => .error "value nesting exhausted the fuel"
  | _, _, [] => .ok []
  | fuel + 1, canonical, e :: es =>
    match extendValue fuel canonical e with
    | .error msg => .error msg
    | .ok b =>
      match extendElems fuel canonical es with
      | .error msg => .error msg
      | .ok bs => .ok (b :: bs)

/-- Extend every field of a JSON object. -/
def extendFields : Nat → Bool → List (List Char × JVal) → Except String (List (List Char × BVal))
  | 0, _, _ => .error "value nesting exhausted the fuel"
  | _, _, [] => .ok []
  | fuel + 1, canonical, (k, v) :: fs =>
    match extendValue fuel canonical v with
    | .error msg => .error msg
    | .ok b =>
      match extendFields fuel canonical fs with
      | .error msg => .error msg
      | .ok gs => .ok ((k, b) :: gs)

end

/-- Model of `bson.UnmarshalExtJSON(data, canonical, &m)` for a `bson.M`
target: the data must be one extended-JSON document; the decoded field list
is returned.  A non-document top-level value (for example a bare wrapper that
decodes to a date) cannot be stored in a map and is an error, as in the
driver. -/
def UnmarshalExtJSONDoc (canonical : Bool) (data : List Char) : Except String (List (List Char × BVal)) :=
  match parseJSON data with
  | .error e => .error e
  | .ok v =>
    match extendValue (2 * data.length + 4) canonical v with
    | .error e => .error e
    | .ok (.doc fs) => .ok fs
    | .ok _ => .error "cannot decode a non-document value into a document"

/-- Decode every element of a top-level extended-JSON array into a document. -/
def elemsToDocs : Nat → Bool → List JVal → Except String (List BVal)
  | _, _, [] => .ok []
  | fuel, canonical, e :: es =>
    match extendValue fuel canonical e with
    | .error msg => .error msg
    | .ok (.doc fs) =>
      match elemsToDocs fuel canonical es with
      | .error msg => .error msg
      | .ok bs => .ok (.doc fs :: bs)
    | .ok _ => .error "cannot decode an array element into a document"

/-- Model of `bson.UnmarshalExtJSON(data, canonical, &arr)` for a `[]bson.M`
target: the data must be one extended-JSON array whose elements are all
documents; the decoded documents are returned in array order. -/
def UnmarshalExtJSONArrM (canonical : Bool) (data : List Char) : Except String (List BVal) :=
  match parseJSON data with
  | .error e => .error e
  | .ok (.arr es) => elemsToDocs (2 * data.length + 4) canonical es
  | .ok _ => .error "cannot decode a non-array value into a document slice"

/-! ### The importer of `src/main.go` -/

namespace MainSrc

/-- `bufio.MaxScanTokenSize`, the default token limit of `bufio.Scanner`. -/
def maxScanTokenSize : Nat := 65536

/-- Model of driving `bufio.Scanner` (with `bufio.ScanLines`) to completion
over the `\n`-separated pieces of the data: pieces shorter than the token
limit are delivered (with a trailing `\r` stripped); a piece of at least the
token limit stops the scanner with `ErrTooLong` (second component `true`),
and no further token is delivered. -/
def scanPieces : List (List Char) → List (List Char) × Bool
  | [] => ([], false)
  | p :: ps =>
    if maxScanTokenSize ≤ p.length then ([], true)
    else (stripCR p :: (scanPieces ps).1, (scanPieces ps).2)

/-- The scanner loop body of `parseExtendedJSON`'s NDJSON branch: for each
scanned token, trim it, skip it if blank, otherwise decode it with
`bson.UnmarshalExtJSON(line, false, &m)` and append the document; a decode
failure aborts with the whole-file error. -/
def decodeTokens : List (List Char) → Except String (List BVal)
  | [] => .ok []
  | t :: ts =>
    let line := trimSpace t
    if line = [] then decodeTokens ts
    else
      match UnmarshalExtJSONDoc false line with
      | .error e => .error ("failed to parse line as Extended JSON: " ++ e)
      | .ok m =>
        match decodeTokens ts with
        | .error e => .error e
        | .ok docs => .ok (BVal.doc m :: docs)

/-- The NDJSON branch of `parseExtendedJSON`: scan lines, decode each
non-blank line, then surface a scanner error (`scanner.Err()`). -/
def decodeLinesGo (d : List Char) : Except String (List BVal) :=
  match decodeTokens (scanPieces (splitOnChar '\n' d)).1 with
  | .error e => .error e
  | .ok docs =>
    if (scanPieces (splitOnChar '\n' d)).2 then .error "bufio.Scanner: token too long"
    else .ok docs

/-- The array branch of `parseExtendedJSON`:
`bson.UnmarshalExtJSON(data, false, &arr)` and the documents in array order. -/
def decodeArrayGo (d : List Char) : Except String (List BVal) :=
  match UnmarshalExtJSONArrM false d with
  | .error e => .error ("failed to parse JSON array: " ++ e)
  | .ok arr => .ok arr

/-- Model of `parseExtendedJSON` from `src/main.go`: trim the data; empty
data yields no documents and no error; if the first byte is `[` the whole
content is decoded as one JSON array, otherwise as newline-delimited records. -/
def parseExtendedJSON (data : List Char) : Except String (List BVal) :=
  match trimSpace data with
  | [] => .ok []
  | c :: rest =>
    if c = '[' then decodeArrayGo (c :: rest)
    else decodeLinesGo (c :: rest)

/-- Model of `extractCollectionName` from `src/main.go`. -/
def extractCollectionName (filePath : List Char) : List Char :=
  let name := goBase filePath
  if goHasSuffix name jsonSuffix then
    let parts := splitOnChar '.' name
    if parts.length < 2 then []
    else parts.getD (parts.length - 2) []
  else []

/-- A database operation issued by the importer. -/
inductive DbOp where
  | deleteMany (coll : List Char)
  | insertMany (coll : List Char) (docs : List BVal)

/-- The external environment of one `processFile` call: the result of
`os.ReadFile` (`none` models a read error) and whether `DeleteMany` and
`InsertMany` succeed.  The `InsertMany` outcome only affects logging, not
which operations are issued. -/
structure FileEnv where
  readResult : Option (List Char)
  deleteOk : Bool
  insertOk : Bool

/-- Model of `processFile` from `src/main.go` as the trace of database
operations it issues: an unrecognised name, a read failure or a parse failure
issues nothing; otherwise `DeleteMany` is issued, and `InsertMany` is issued
only if `DeleteMany` succeeded. -/
def processFile (path : List Char) (env : FileEnv) : List DbOp :=
  let coll := extractCollectionName path
  if coll = [] then []
  else
    match env.readResult with
    | none => []
    | some data =>
      match parseExtendedJSON data with
      | .error _ => []
      | .ok docs =>
        if env.deleteOk then
          [DbOp.deleteMany coll, DbOp.insertMany coll docs]
        else [DbOp.deleteMany coll]

/-- Model of the per-file loop of `main`: every file is processed in order,
regardless of the outcomes of the other files. -/
def runImport : List (List Char × FileEnv) → List DbOp
  | [] => []
  | (p, env) :: rest => processFile p env ++ runImport rest

/-- Remove the blank entries of a list of trimmed lines, keeping the order. -/
def dropBlanks : List (List Char) → List (List Char)
  | [] => []
  | l :: ls => if l = [] then dropBlanks ls else l :: dropBlanks ls

/-- The trimmed non-blank lines of the scanned content, in line order. -/
def nonBlankLines (d : List Char) : List (List Char) :=
  dropBlanks ((splitOnChar '\n' d).map trimSpace)

/-- Reference form of the NDJSON decoding: decode each given line in order,
failing on the first undecodable line. -/
def mapDecode : List (List Char) → Except String (List BVal)
  | [] => .ok []
  | l :: ls =>
    match UnmarshalExtJSONDoc false l with
    | .error e => .error e
    | .ok m =>
      match mapDecode ls with
      | .error e => .error e
      | .ok bs => .ok (BVal.doc m :: bs)

end MainSrc

/-! ### The importer variant of `src/unnamed/part_000` -/

namespace Part000

/-- Model of `extractCollectionName` from `src/unnamed/part_000`. -/
def extractCollectionName (filePath : List Char) : List Char :=
  let filename := goBase filePath
  if goHasSuffix filename jsonSuffix then
    let parts := splitOnChar '.' filename
    if parts.length < 2 then []
    else parts.getD (parts.length - 2) []
  else []

end Part000

/-! ### Helper lemmas -/

theorem splitOnChar_ne_nil (sep : Char) (l : List Char) : splitOnChar sep l ≠ [] := by
  cases l with
  | nil => simp [splitOnChar]
  | cons c rest =>
    simp only [splitOnChar]
    split
    · simp
    · split <;> simp

theorem splitOnChar_no_sep {sep : Char} {l : List Char} (h : sep ∉ l) :
    splitOnChar sep l = [l] := by
  induction l with
  | nil => rfl
  | cons c rest ih =>
    simp only [List.mem_cons, not_or] at h
    obtain ⟨h1, h2⟩ := h
    have hc : ¬ c = sep := fun e => h1 e.symm
    simp only [splitOnChar, if_neg hc, ih h2]

theorem splitOnChar_append_sep {sep : Char} {xs : List Char} (ys : List Char)
    (h : sep ∉ xs) :
    splitOnChar sep (xs ++ sep :: ys) = xs :: splitOnChar sep ys := by
  induction xs with
  | nil => simp [splitOnChar]
  | cons c rest ih =>
    simp only [List.mem_cons, not_or] at h
    obtain ⟨h1, h2⟩ := h
    have hc : ¬ c = sep := fun e => h1 e.symm
    have h3 : splitOnChar sep (rest ++ sep :: ys) = rest :: splitOnChar sep ys := ih h2
    simp only [List.cons_append, splitOnChar, if_neg hc, List.append_eq, h3]

theorem goHasSuffix_iff (s suffix : List Char) :
    goHasSuffix s suffix = true ↔ ∃ w, s = w ++ suffix := by
  unfold goHasSuffix
  rw [Bool.and_eq_true]
  simp only [decide_eq_true_eq]
  constructor
  · rintro ⟨hle, hdrop⟩
    refine ⟨s.take (s.length - suffix.length), ?_⟩
    conv_lhs => rw [← List.take_append_drop (s.length - suffix.length) s]
    rw [hdrop]
  · rintro ⟨w, rfl⟩
    refine ⟨by simp, ?_⟩
    have hl : (w ++ suffix).length - suffix.length = w.length := by
      simp [List.length_append]
    rw [hl, List.drop_left]

theorem splitOnChar_cons_of_ne {sep c : Char} (hc : ¬ c = sep) {l r : List Char}
    {rs : List (List Char)} (h : splitOnChar sep l = r :: rs) :
    splitOnChar sep (c :: l) = (c :: r) :: rs := by
  simp only [splitOnChar, if_neg hc, h]

theorem c2_aux {n : List Char} (hn : '.' ∉ n) (w : List Char) :
    3 ≤ (splitOnChar '.' (w ++ '.' :: (n ++ jsonSuffix))).length ∧
    (splitOnChar '.' (w ++ '.' :: (n ++ jsonSuffix))).getD
      ((splitOnChar '.' (w ++ '.' :: (n ++ jsonSuffix))).length - 2) [] = n := by
  induction w with
  | nil =>
    have hjson : ('.' : Char) ∉ toChars "json" := by decide
    have h1 : splitOnChar '.' (n ++ jsonSuffix) = [n, toChars "json"] := by
      rw [show n ++ jsonSuffix = n ++ '.' :: toChars "json" from rfl,
        splitOnChar_append_sep _ hn, splitOnChar_no_sep hjson]
    have h2 : splitOnChar '.' (([] : List Char) ++ '.' :: (n ++ jsonSuffix))
        = [] :: splitOnChar '.' (n ++ jsonSuffix) := by
      simp [splitOnChar]
    rw [h2, h1]
    simp [List.getD]
  | cons c w' ih =>
    obtain ⟨ihlen, ihget⟩ := ih
    by_cases hc : c = '.'
    · subst hc
      have h2 : splitOnChar '.' (('.' :: w') ++ '.' :: (n ++ jsonSuffix))
          = [] :: splitOnChar '.' (w' ++ '.' :: (n ++ jsonSuffix)) := by
        simp [splitOnChar]
      rw [h2]
      set L := splitOnChar '.' (w' ++ '.' :: (n ++ jsonSuffix)) with hL
      refine ⟨by simp; omega, ?_⟩
      have hidx : ([] :: L).length - 2 = (L.length - 2) + 1 := by
        simp; omega
      rw [hidx, List.getD_cons_succ]
      exact ihget
    · obtain ⟨r, rs, hrs⟩ : ∃ r rs, splitOnChar '.' (w' ++ '.' :: (n ++ jsonSuffix)) = r :: rs := by
        cases hE : splitOnChar '.' (w' ++ '.' :: (n ++ jsonSuffix)) with
        | nil => exact absurd hE (splitOnChar_ne_nil _ _)
        | cons r rs => exact ⟨r, rs, rfl⟩
      have h2 : splitOnChar '.' ((c :: w') ++ '.' :: (n ++ jsonSuffix)) = (c :: r) :: rs := by
        rw [List.cons_append]
        exact splitOnChar_cons_of_ne hc hrs
      rw [hrs] at ihlen ihget
      have hrslen : 2 ≤ rs.length := by simp at ihlen; omega
      rw [h2]
      refine ⟨by simp; omega, ?_⟩
      have hidx : ((c :: r) :: rs).length - 2 = (rs.length - 2) + 1 := by
        simp; omega
      have hidx' : (r :: rs).length - 2 = (rs.length - 2) + 1 := by
        simp; omega
      rw [hidx, List.getD_cons_succ]
      rw [hidx', List.getD_cons_succ] at ihget
      exact ihget

theorem dropWhile_eq_self_of_false {p : Char → Bool} {l : List Char}
    (h : ∀ c ∈ l, p c = false) : l.dropWhile p = l := by
  cases l with
  | nil => rfl
  | cons c rest =>
    simp [List.dropWhile_cons, h c (List.mem_cons_self c rest)]

theorem trimSpace_of_no_space {l : List Char} (h : ∀ c ∈ l, goIsSpace c = false) :
    trimSpace l = l := by
  have h1 : l.reverse.dropWhile goIsSpace = l.reverse :=
    dropWhile_eq_self_of_false (fun c hc => h c (List.mem_reverse.mp hc))
  have h2 : trimRight l = l := by simp [trimRight, h1]
  simp [trimSpace, h2, trimLeft, dropWhile_eq_self_of_false h]

theorem trimSpace_of_all_space {l : List Char} (h : ∀ c ∈ l, goIsSpace c = true) :
    trimSpace l = [] := by
  have h1 : l.reverse.dropWhile goIsSpace = [] := by
    rw [List.dropWhile_eq_nil_iff]
    intro x hx
    exact h x (List.mem_reverse.mp hx)
  simp [trimSpace, trimRight, trimLeft, h1]

theorem trimRight_stripCR (p : List Char) : trimRight (stripCR p) = trimRight p := by
  unfold stripCR
  cases hr : p.reverse with
  | nil => rfl
  | cons c rest =>
    by_cases hc : c = '\r'
    · subst hc
      simp only [if_pos rfl]
      have hsp : goIsSpace '\r' = true := rfl
      simp [trimRight, hr, List.reverse_reverse, List.dropWhile_cons, hsp]
    · simp [if_neg hc]

theorem trimSpace_stripCR (p : List Char) : trimSpace (stripCR p) = trimSpace p := by
  unfold trimSpace
  rw [trimRight_stripCR]

theorem scanPieces_snd_true {ps : List (List Char)}
    (h : ∃ p ∈ ps, MainSrc.maxScanTokenSize ≤ p.length) :
    (MainSrc.scanPieces ps).2 = true := by
  induction ps with
  | nil => simp at h
  | cons p ps ih =>
    obtain ⟨q, hq, hlen⟩ := h
    by_cases hp : MainSrc.maxScanTokenSize ≤ p.length
    · simp [MainSrc.scanPieces, hp]
    · rcases List.mem_cons.mp hq with rfl | hq'
      · exact absurd hlen hp
      · have := ih ⟨q, hq', hlen⟩
        simp [MainSrc.scanPieces, hp, this]

theorem scanPieces_fst_of_not_snd {ps : List (List Char)}
    (h : (MainSrc.scanPieces ps).2 = false) :
    (MainSrc.scanPieces ps).1 = ps.map stripCR := by
  induction ps with
  | nil => rfl
  | cons p ps ih =>
    by_cases hp : MainSrc.maxScanTokenSize ≤ p.length
    · simp [MainSrc.scanPieces, hp] at h
    · simp only [MainSrc.scanPieces, if_neg hp] at h ⊢
      simp [List.map_cons, ih h]

theorem decodeLinesGo_isErr_of_tooLong {d : List Char}
    (h : (MainSrc.scanPieces (splitOnChar '\n' d)).2 = true) :
    isErr (MainSrc.decodeLinesGo d) = true := by
  unfold MainSrc.decodeLinesGo
  cases hdt : MainSrc.decodeTokens (MainSrc.scanPieces (splitOnChar '\n' d)).1 with
  | error e => simp [hdt, isErr]
  | ok docs => simp [hdt, h, isErr]

theorem decodeTokens_isErr {ts : List (List Char)}
    (h : ∃ t ∈ ts, trimSpace t ≠ [] ∧ isErr (UnmarshalExtJSONDoc false (trimSpace t)) = true) :
    isErr (MainSrc.decodeTokens ts) = true := by
  induction ts with
  | nil => simp at h
  | cons t ts ih =>
    obtain ⟨u, hu, hne, herr⟩ := h
    by_cases hb : trimSpace t = []
    · rcases List.mem_cons.mp hu with rfl | hu'
      · exact absurd hb hne
      · simpa [MainSrc.decodeTokens, hb] using ih ⟨u, hu', hne, herr⟩
    · cases hdec : UnmarshalExtJSONDoc false (trimSpace t) with
      | error e => simp [MainSrc.decodeTokens, hb, hdec, isErr]
      | ok m =>
        rcases List.mem_cons.mp hu with rfl | hu'
        · rw [hdec] at herr
          simp [isErr] at herr
        · have htail := ih ⟨u, hu', hne, herr⟩
          cases hdt : MainSrc.decodeTokens ts with
          | error e => simp [MainSrc.decodeTokens, hb, hdec, hdt, isErr]
          | ok docs =>
            rw [hdt] at htail
            simp [isErr] at htail

theorem mem_dropBlanks {L : List (List Char)} {l : List Char} :
    l ∈ MainSrc.dropBlanks L ↔ l ∈ L ∧ l ≠ [] := by
  induction L with
  | nil => simp [MainSrc.dropBlanks]
  | cons x xs ih =>
    by_cases hx : x = []
    · rw [show MainSrc.dropBlanks (x :: xs)
          = if x = [] then MainSrc.dropBlanks xs else x :: MainSrc.dropBlanks xs from rfl,
        if_pos hx, ih]
      subst hx
      constructor
      · rintro ⟨h1, h2⟩
        exact ⟨List.mem_cons_of_mem _ h1, h2⟩
      · rintro ⟨h1, h2⟩
        rcases List.mem_cons.mp h1 with rfl | h1'
        · exact absurd rfl h2
        · exact ⟨h1', h2⟩
    · rw [show MainSrc.dropBlanks (x :: xs)
          = if x = [] then MainSrc.dropBlanks xs else x :: MainSrc.dropBlanks xs from rfl,
        if_neg hx]
      constructor
      · intro hm
        rcases List.mem_cons.mp hm with rfl | h1'
        · exact ⟨List.mem_cons_self _ _, hx⟩
        · obtain ⟨ha, hb2⟩ := ih.mp h1'
          exact ⟨List.mem_cons_of_mem _ ha, hb2⟩
      · rintro ⟨h1, h2⟩
        rcases List.mem_cons.mp h1 with rfl | h1'
        · exact List.mem_cons_self _ _
        · exact List.mem_cons_of_mem _ (ih.mpr ⟨h1', h2⟩)

theorem decodeTokens_ok_mapDecode {ts : List (List Char)} {docs : List BVal}
    (h : MainSrc.decodeTokens ts = .ok docs) :
    MainSrc.mapDecode (MainSrc.dropBlanks (ts.map trimSpace)) = .ok docs := by
  induction ts generalizing docs with
  | nil =>
    simp only [MainSrc.decodeTokens] at h
    simp only [List.map_nil, MainSrc.dropBlanks, MainSrc.mapDecode]
    exact h
  | cons t ts ih =>
    by_cases hb : trimSpace t = []
    · have h' : MainSrc.decodeTokens ts = .ok docs := by
        simpa [MainSrc.decodeTokens, hb] using h
      simpa [List.map_cons, MainSrc.dropBlanks, hb] using ih h'
    · cases hdec : UnmarshalExtJSONDoc false (trimSpace t) with
      | error e => simp [MainSrc.decodeTokens, hb, hdec] at h
      | ok m =>
        cases hdt : MainSrc.decodeTokens ts with
        | error e => simp [MainSrc.decodeTokens, hb, hdec, hdt] at h
        | ok ds =>
          have hdocs : BVal.doc m :: ds = docs := by
            simpa [MainSrc.decodeTokens, hb, hdec, hdt] using h
          have hrec := ih hdt
          rw [List.map_cons,
            show MainSrc.dropBlanks (trimSpace t :: List.map trimSpace ts)
              = trimSpace t :: MainSrc.dropBlanks (List.map trimSpace ts) from by
              simp [MainSrc.dropBlanks, hb]]
          simp [MainSrc.mapDecode, hdec, hrec, hdocs]

theorem runImport_append (a b : List (List Char × MainSrc.FileEnv)) :
    MainSrc.runImport (a ++ b) = MainSrc.runImport a ++ MainSrc.runImport b := by
  induction a with
  | nil => rfl
  | cons x rest ih =>
    cases x
    simp [MainSrc.runImport, ih, List.append_assoc]

/-! ### Claim theorems -/

/-- C2: for every file path, `extractCollectionName` of `src/main.go` returns
the segment immediately preceding the final `.json` segment of the filename
(the final path segment): for filenames of shape `<name>.json` or
`<pre>.<name>.json` (with `<name>` dot-free) it returns `<name>`; for
filenames not ending in the literal suffix `.json`, and for the filename
that is exactly `.json`, it returns the empty string, signalling a skip. -/
theorem c2_extract_collection_name (path : List Char) :
    ((¬ ∃ w, goBase path = w ++ jsonSuffix) → MainSrc.extractCollectionName path = [])
    ∧ (goBase path = jsonSuffix → MainSrc.extractCollectionName path = [])
    ∧ (∀ n : List Char, '.' ∉ n → goBase path = n ++ jsonSuffix →
        MainSrc.extractCollectionName path = n)
    ∧ (∀ w n : List Char, '.' ∉ n → goBase path = w ++ '.' :: (n ++ jsonSuffix) →
        MainSrc.extractCollectionName path = n) := by
  refine ⟨?_, ?_, ?_, ?_⟩
  · intro hno
    have hs : goHasSuffix (goBase path) jsonSuffix = false := by
      cases h : goHasSuffix (goBase path) jsonSuffix
      · rfl
      · exact absurd ((goHasSuffix_iff _ _).mp h) hno
    simp [MainSrc.extractCollectionName, hs]
  · intro h
    simp only [MainSrc.extractCollectionName, h]
    decide
  · intro n hn h
    have hs : goHasSuffix (n ++ jsonSuffix) jsonSuffix = true :=
      (goHasSuffix_iff _ _).mpr ⟨n, rfl⟩
    have hjson : ('.' : Char) ∉ toChars "json" := by decide
    have hsplit : splitOnChar '.' (n ++ jsonSuffix) = [n, toChars "json"] := by
      rw [show n ++ jsonSuffix = n ++ '.' :: toChars "json" from rfl,
        splitOnChar_append_sep _ hn, splitOnChar_no_sep hjson]
    simp [MainSrc.extractCollectionName, h, hs, hsplit, List.getD]
  · intro w n hn h
    have hs : goHasSuffix (w ++ '.' :: (n ++ jsonSuffix)) jsonSuffix = true := by
      refine (goHasSuffix_iff _ _).mpr ⟨w ++ '.' :: n, ?_⟩
      simp [List.append_assoc]
    obtain ⟨hlen, hget⟩ := c2_aux hn w
    have hnotlt : ¬ (splitOnChar '.' (w ++ '.' :: (n ++ jsonSuffix))).length < 2 := by
      omega
    simp only [MainSrc.extractCollectionName, h, hs, if_pos, if_neg hnotlt, hget]

/-- C2 witness: `/data/orders.v2.json` maps to collection `v2`. -/
theorem c2_witness :
    MainSrc.extractCollectionName (toChars "/data/orders.v2.json") = toChars "v2" :=
  (c2_extract_collection_name (toChars "/data/orders.v2.json")).2.2.2
    (toChars "orders") (toChars "v2") (by decide) (by decide)

/-- C6: for every input whose trimmed content is non-empty, the decode mode
of `parseExtendedJSON` is chosen solely by the first non-whitespace byte:
`[` selects the whole-content array decode, anything else selects the
newline-delimited decode, and the result equals that single branch (never a
mixture of both). -/
theorem c6_dispatch_on_first_byte (data : List Char) (h : trimSpace data ≠ []) :
    ((trimSpace data).head? = some '[' →
      MainSrc.parseExtendedJSON data = MainSrc.decodeArrayGo (trimSpace data))
    ∧ ((trimSpace data).head? ≠ some '[' →
      MainSrc.parseExtendedJSON data = MainSrc.decodeLinesGo (trimSpace data)) := by
  cases hd : trimSpace data with
  | nil => exact absurd hd h
  | cons c rest =>
    constructor
    · intro hc
      simp only [List.head?_cons, Option.some.injEq] at hc
      subst hc
      simp [MainSrc.parseExtendedJSON, hd]
    · intro hc
      simp only [List.head?_cons, ne_eq, Option.some.injEq] at hc
      simp [MainSrc.parseExtendedJSON, hd, hc]

/-- C6 witness: the input `[]` starts with `[` after trimming and is decoded
by the array branch. -/
theorem c6_witness :
    MainSrc.parseExtendedJSON (toChars "[]")
      = MainSrc.decodeArrayGo (trimSpace (toChars "[]")) :=
  (c6_dispatch_on_first_byte (toChars "[]") (by decide)).1 (by decide)

/-- C8: every input that is empty or consists only of whitespace parses to
zero records with no error. -/
theorem c8_whitespace_input_yields_no_records (data : List Char)
    (h : ∀ c ∈ data, goIsSpace c = true) :
    MainSrc.parseExtendedJSON data = .ok [] := by
  have ht : trimSpace data = [] := trimSpace_of_all_space h
  simp [MainSrc.parseExtendedJSON, ht]

/-- C8 witness: the input of one space, one newline and one tab parses to
zero records with no error. -/
theorem c8_witness : MainSrc.parseExtendedJSON [' ', '\n', '\t'] = .ok [] :=
  c8_whitespace_input_yields_no_records [' ', '\n', '\t'] (by decide)

/-- C9: the `extractCollectionName` implementations of `src/main.go` and of
`src/unnamed/part_000` agree on every input file path. -/
theorem c9_extract_name_equivalent (p : List Char) :
    MainSrc.extractCollectionName p = Part000.extractCollectionName p := rfl

/-- C3: in NDJSON mode (trimmed content not starting with `[`), if any
non-blank line fails to decode as a single extended-JSON object, the whole
parse returns an error and hence zero records: the lines that would decode
before or after the malformed one are not returned. -/
theorem c3_malformed_line_fails_whole_file (data : List Char)
    (hnd : (trimSpace data).head? ≠ some '[')
    (h : ∃ l ∈ MainSrc.nonBlankLines (trimSpace data),
      isErr (UnmarshalExtJSONDoc false l) = true) :
    isErr (MainSrc.parseExtendedJSON data) = true := by
  cases hd : trimSpace data with
  | nil =>
    rw [hd] at h
    simp [MainSrc.nonBlankLines, splitOnChar, trimSpace, trimLeft, trimRight,
      MainSrc.dropBlanks] at h
  | cons c rest =>
    rw [hd] at hnd h
    have hc : ¬ c = '[' := by simpa using hnd
    have hp : MainSrc.parseExtendedJSON data = MainSrc.decodeLinesGo (c :: rest) := by
      simp [MainSrc.parseExtendedJSON, hd, hc]
    rw [hp]
    by_cases htl : (MainSrc.scanPieces (splitOnChar '\n' (c :: rest))).2 = true
    · exact decodeLinesGo_isErr_of_tooLong htl
    · have htl' : (MainSrc.scanPieces (splitOnChar '\n' (c :: rest))).2 = false := by
        simpa using htl
      have hfst := scanPieces_fst_of_not_snd htl'
      obtain ⟨l, hl, herr⟩ := h
      rw [MainSrc.nonBlankLines, mem_dropBlanks] at hl
      obtain ⟨hl1, hlne⟩ := hl
      obtain ⟨p, hp_mem, hp_eq⟩ := List.mem_map.mp hl1
      have htok_mem : stripCR p ∈ (MainSrc.scanPieces (splitOnChar '\n' (c :: rest))).1 := by
        rw [hfst]
        exact List.mem_map_of_mem _ hp_mem
      have htrim : trimSpace (stripCR p) = l := by
        rw [trimSpace_stripCR, hp_eq]
      have herr' :
          isErr (MainSrc.decodeTokens
            (MainSrc.scanPieces (splitOnChar '\n' (c :: rest))).1) = true :=
        decodeTokens_isErr
          ⟨stripCR p, htok_mem, by rw [htrim]; exact hlne, by rw [htrim]; exact herr⟩
      unfold MainSrc.decodeLinesGo
      cases hdt : MainSrc.decodeTokens
          (MainSrc.scanPieces (splitOnChar '\n' (c :: rest))).1 with
      | error e => simp [hdt, isErr]
      | ok docs =>
        rw [hdt] at herr'
        simp [isErr] at herr'

/-- C3 witness: a three-line NDJSON input whose middle line is not valid
extended JSON fails as a whole, although its first and last lines are valid. -/
theorem c3_witness :
    isErr (MainSrc.parseExtendedJSON
      (toChars "\x7b\"a\":1\x7d\nnot-json\n\x7b\"b\":2\x7d")) = true :=
  c3_malformed_line_fails_whole_file
    (toChars "\x7b\"a\":1\x7d\nnot-json\n\x7b\"b\":2\x7d")
    (by decide)
    ⟨toChars "not-json", by decide, by rfl⟩

/-- C7: every successful parse returns the records in source order: in array
mode the result is exactly the array decode of the whole trimmed content
(element order), and in NDJSON mode the result is exactly the in-order
decode of the non-blank trimmed lines, blank lines contributing no record. -/
theorem c7_records_in_source_order (data : List Char) (docs : List BVal)
    (hok : MainSrc.parseExtendedJSON data = .ok docs) :
    ((trimSpace data).head? = some '[' →
      UnmarshalExtJSONArrM false (trimSpace data) = .ok docs)
    ∧ ((trimSpace data).head? ≠ some '[' →
      MainSrc.mapDecode (MainSrc.nonBlankLines (trimSpace data)) = .ok docs) := by
  cases hd : trimSpace data with
  | nil =>
    have hdocs : docs = [] := by
      simp [MainSrc.parseExtendedJSON, hd] at hok
      exact hok
    subst hdocs
    constructor
    · intro hcontra
      simp at hcontra
    · intro _
      simp [MainSrc.nonBlankLines, splitOnChar, trimSpace, trimLeft, trimRight,
        MainSrc.dropBlanks, MainSrc.mapDecode]
  | cons c rest =>
    by_cases hc : c = '['
    · subst hc
      constructor
      · intro _
        have hp : MainSrc.parseExtendedJSON data = MainSrc.decodeArrayGo ('[' :: rest) := by
          simp [MainSrc.parseExtendedJSON, hd]
        rw [hp] at hok
        unfold MainSrc.decodeArrayGo at hok
        cases hu : UnmarshalExtJSONArrM false ('[' :: rest) with
        | error e =>
          rw [hu] at hok
          simp at hok
        | ok arr =>
          rw [hu] at hok
          simp only [Except.ok.injEq] at hok
          rw [hok]
      · intro hne
        simp at hne
    · constructor
      · intro hhead
        simp only [List.head?_cons, Option.some.injEq] at hhead
        exact absurd hhead hc
      · intro _
        have hp : MainSrc.parseExtendedJSON data = MainSrc.decodeLinesGo (c :: rest) := by
          simp [MainSrc.parseExtendedJSON, hd, hc]
        rw [hp] at hok
        unfold MainSrc.decodeLinesGo at hok
        cases hdt : MainSrc.decodeTokens
            (MainSrc.scanPieces (splitOnChar '\n' (c :: rest))).1 with
        | error e =>
          rw [hdt] at hok
          simp at hok
        | ok ds =>
          rw [hdt] at hok
          by_cases htl : (MainSrc.scanPieces (splitOnChar '\n' (c :: rest))).2 = true
          · simp [htl] at hok
          · have htl' : (MainSrc.scanPieces (splitOnChar '\n' (c :: rest))).2 = false := by
              simpa using htl
            simp [htl'] at hok
            have hfst := scanPieces_fst_of_not_snd htl'
            rw [hfst] at hdt
            have hmap := decodeTokens_ok_mapDecode hdt
            rw [List.map_map] at hmap
            have hcong : (splitOnChar '\n' (c :: rest)).map (trimSpace ∘ stripCR)
                = (splitOnChar '\n' (c :: rest)).map trimSpace :=
              List.map_congr_left (fun p _ => trimSpace_stripCR p)
            rw [hcong] at hmap
            rw [MainSrc.nonBlankLines]
            rw [hok] at hmap
            exact hmap

/-- C7 witness: two objects on consecutive lines parse to exactly those two
records in that order, and equal the in-order decode of the non-blank lines
(the trailing blank line contributing nothing). -/
theorem c7_witness :
    MainSrc.parseExtendedJSON (toChars "\x7b\"a\":1\x7d\n\x7b\"b\":2\x7d\n")
        = .ok [BVal.doc [(toChars "a", BVal.int 1)], BVal.doc [(toChars "b", BVal.int 2)]]
    ∧ MainSrc.mapDecode (MainSrc.nonBlankLines (trimSpace (toChars "\x7b\"a\":1\x7d\n\x7b\"b\":2\x7d\n")))
        = .ok [BVal.doc [(toChars "a", BVal.int 1)], BVal.doc [(toChars "b", BVal.int 2)]] :=
  ⟨rfl,
    (c7_records_in_source_order (toChars "\x7b\"a\":1\x7d\n\x7b\"b\":2\x7d\n")
      [BVal.doc [(toChars "a", BVal.int 1)], BVal.doc [(toChars "b", BVal.int 2)]]
      rfl).2 (by decide)⟩

/-- C10: in NDJSON mode, an input whose scanned content contains a line
longer than the scanner's default maximum token size of 65536 bytes makes
the whole parse fail with an error and zero records, regardless of the
lines' contents. -/
theorem c10_overlong_line_fails_whole_file (data : List Char)
    (hnd : (trimSpace data).head? ≠ some '[')
    (h : ∃ p ∈ splitOnChar '\n' (trimSpace data), 65536 < p.length) :
    isErr (MainSrc.parseExtendedJSON data) = true := by
  cases hd : trimSpace data with
  | nil =>
    rw [hd] at h
    obtain ⟨p, hp, hlen⟩ := h
    simp [splitOnChar] at hp
    subst hp
    simp at hlen
  | cons c rest =>
    rw [hd] at hnd h
    have hc : ¬ c = '[' := by simpa using hnd
    have hp : MainSrc.parseExtendedJSON data = MainSrc.decodeLinesGo (c :: rest) := by
      simp [MainSrc.parseExtendedJSON, hd, hc]
    rw [hp]
    apply decodeLinesGo_isErr_of_tooLong
    apply scanPieces_snd_true
    obtain ⟨p, hpm, hlen⟩ := h
    refine ⟨p, hpm, ?_⟩
    unfold MainSrc.maxScanTokenSize
    omega

/-- C10 witness: a single line of 65537 `a` characters fails the parse. -/
theorem c10_witness :
    isErr (MainSrc.parseExtendedJSON (List.replicate 65537 'a')) = true := by
  have hns : ∀ c ∈ List.replicate 65537 'a', goIsSpace c = false := by
    intro c hc
    rw [List.eq_of_mem_replicate hc]
    rfl
  have htrim : trimSpace (List.replicate 65537 'a') = List.replicate 65537 'a' :=
    trimSpace_of_no_space hns
  apply c10_overlong_line_fails_whole_file
  · rw [htrim, show (65537 : Nat) = 65536 + 1 from rfl, List.replicate_succ]
    simp only [List.head?_cons, ne_eq, Option.some.injEq]
    decide
  · rw [htrim]
    have hmem : ('\n' : Char) ∉ List.replicate 65537 'a' := by
      intro hm
      exact absurd (List.eq_of_mem_replicate hm) (by decide)
    rw [splitOnChar_no_sep hmem]
    refine ⟨List.replicate 65537 'a', List.mem_singleton_self _, ?_⟩
    rw [List.length_replicate]
    omega

/-- C4: when a file's content fails to parse, `processFile` issues no
database operation at all — in particular the delete-all (`DeleteMany`) on
the target collection is never called, so a pre-existing collection is left
untouched. -/
theorem c4_parse_failure_issues_no_db_ops (path : List Char) (env : MainSrc.FileEnv)
    (data : List Char) (hread : env.readResult = some data)
    (hparse : isErr (MainSrc.parseExtendedJSON data) = true) :
    MainSrc.processFile path env = [] := by
  cases hp : MainSrc.parseExtendedJSON data with
  | ok docs =>
    rw [hp] at hparse
    simp [isErr] at hparse
  | error e =>
    by_cases hcoll : MainSrc.extractCollectionName path = []
    · simp [MainSrc.processFile, hcoll]
    · simp [MainSrc.processFile, hcoll, hread, hp]

/-- C4 witness: for the file `bad.orders.json` with unparsable content, no
database operation is issued. -/
theorem c4_witness :
    MainSrc.processFile (toChars "bad.orders.json")
      ⟨some (toChars "not json"), true, true⟩ = [] :=
  c4_parse_failure_issues_no_db_ops (toChars "bad.orders.json")
    ⟨some (toChars "not json"), true, true⟩ (toChars "not json") rfl (by rfl)

/-- C5: the operation trace of `processFile` is one of `[]`,
`[DeleteMany]` or `[DeleteMany, InsertMany]` on the derived collection, so
the delete-all always precedes the insert; when `DeleteMany` fails, no
`InsertMany` is ever issued for that file; and within the run loop every
file's operations are those of its own `processFile` call, unaffected by the
outcomes of the files before or after it. -/
theorem c5_delete_before_insert (path : List Char) (env : MainSrc.FileEnv) :
    (MainSrc.processFile path env = []
      ∨ MainSrc.processFile path env
          = [MainSrc.DbOp.deleteMany (MainSrc.extractCollectionName path)]
      ∨ ∃ docs, MainSrc.processFile path env
          = [MainSrc.DbOp.deleteMany (MainSrc.extractCollectionName path),
             MainSrc.DbOp.insertMany (MainSrc.extractCollectionName path) docs])
    ∧ (env.deleteOk = false →
        ∀ c d, MainSrc.DbOp.insertMany c d ∉ MainSrc.processFile path env)
    ∧ (∀ pre post,
        MainSrc.runImport (pre ++ (path, env) :: post)
          = MainSrc.runImport pre ++ (MainSrc.processFile path env ++ MainSrc.runImport post)) := by
  refine ⟨?_, ?_, ?_⟩
  · by_cases hcoll : MainSrc.extractCollectionName path = []
    · exact Or.inl (by simp [MainSrc.processFile, hcoll])
    · cases hr : env.readResult with
      | none => exact Or.inl (by simp [MainSrc.processFile, hcoll, hr])
      | some data =>
        cases hp : MainSrc.parseExtendedJSON data with
        | error e => exact Or.inl (by simp [MainSrc.processFile, hcoll, hr, hp])
        | ok docs =>
          by_cases hdel : env.deleteOk
          · exact Or.inr (Or.inr ⟨docs, by simp [MainSrc.processFile, hcoll, hr, hp, hdel]⟩)
          · exact Or.inr (Or.inl (by simp [MainSrc.processFile, hcoll, hr, hp, hdel]))
  · intro hdel c d
    by_cases hcoll : MainSrc.extractCollectionName path = []
    · simp [MainSrc.processFile, hcoll]
    · cases hr : env.readResult with
      | none => simp [MainSrc.processFile, hcoll, hr]
      | some data =>
        cases hp : MainSrc.parseExtendedJSON data with
        | error e => simp [MainSrc.processFile, hcoll, hr, hp]
        | ok docs => simp [MainSrc.processFile, hcoll, hr, hp, hdel]
  · intro pre post
    rw [runImport_append]
    rfl

/-- C5 witness: with a failing `DeleteMany`, no `InsertMany` is issued. -/
theorem c5_witness :
    MainSrc.DbOp.insertMany (toChars "users") []
      ∉ MainSrc.processFile (toChars "users.json")
        ⟨some (toChars "\x7b\x7d"), false, true⟩ :=
  (c5_delete_before_insert (toChars "users.json")
    ⟨some (toChars "\x7b\x7d"), false, true⟩).2.1 rfl (toChars "users") []

/-- C1 counterexample: the input whose `d` field carries the relaxed
shorthand `$date` wrapper (a plain RFC 3339 string, whose canonical
encoding would instead be a nested `$numberLong` document) does NOT fail:
`parseExtendedJSON` accepts it and returns the decoded timestamp, because
the call sites pass `canonical = false` (relaxed mode) to
`bson.UnmarshalExtJSON`.  This refutes the claim's assertions that the mode
is canonical and that every relaxed-shorthand input fails with a decode
error. -/
theorem c1_counterexample_relaxed_shorthand_accepted :
    isErr (MainSrc.parseExtendedJSON
      (toChars "\x7b\"d\":\x7b\"$date\":\"2020-01-01T00:00:00Z\"\x7d\x7d")) = false
    ∧ MainSrc.parseExtendedJSON
        (toChars "\x7b\"d\":\x7b\"$date\":\"2020-01-01T00:00:00Z\"\x7d\x7d")
      = .ok [BVal.doc [(toChars "d", BVal.dateTime 1577836800000)]] :=
  ⟨rfl, rfl⟩

/-- C1 amended: `parseExtendedJSON` decodes extended-JSON wrappers with
`canonical = false`, i.e. in relaxed mode, in both its NDJSON branch and its
array branch: the `$date` example succeeds in both branches and yields one
record whose `d` field is the timestamp 1577836800000 ms; the relaxed
shorthand is accepted rather than rejected (only the canonical-only decoding
mode, which the code does not use, would reject it), and the canonical
`$numberLong` encoding is accepted as well. -/
theorem c1_amended_relaxed_mode_both_branches :
    MainSrc.parseExtendedJSON
        (toChars "\x7b\"d\":\x7b\"$date\":\"2020-01-01T00:00:00Z\"\x7d\x7d")
      = .ok [BVal.doc [(toChars "d", BVal.dateTime 1577836800000)]]
    ∧ MainSrc.parseExtendedJSON
        (toChars "[\x7b\"d\":\x7b\"$date\":\"2020-01-01T00:00:00Z\"\x7d\x7d]")
      = .ok [BVal.doc [(toChars "d", BVal.dateTime 1577836800000)]]
    ∧ MainSrc.parseExtendedJSON
        (toChars "\x7b\"d\":\x7b\"$date\":\x7b\"$numberLong\":\"1577836800000\"\x7d\x7d\x7d")
      = .ok [BVal.doc [(toChars "d", BVal.dateTime 1577836800000)]]
    ∧ isErr (UnmarshalExtJSONDoc true
        (toChars "\x7b\"d\":\x7b\"$date\":\"2020-01-01T00:00:00Z\"\x7d\x7d")) = true :=
  ⟨rfl, rfl, rfl, rfl⟩
